import Mathlib

/-!
# Verification of the bill-splitting allocator (`src/core.ts`)

A shallow embedding of the TypeScript bill-splitting core into Lean 4.
JavaScript numbers are modelled as rationals (`ℚ`); `Math.round` is
`round : ℚ → ℤ` (round half toward +∞, which is Mathlib's `round`);
strings are Lean `String`s compared by the code-point lexicographic
order that JavaScript's default array sort uses.
-/

/-- `Math.round (x * 10) / 10`: round to the nearest tenth, halves toward +∞. -/
def round10 (x : ℚ) : ℚ := ((round (10 * x) : ℤ) : ℚ) / 10

/- ## String comparison (JS default sort order) -/

/-- Lexicographic strict comparison of char lists by code point, as JS
compares strings (`<`) code unit by code unit. -/
def charListLt : List Char → List Char → Bool
  | _, [] => false
  | [], _ :: _ => true
  | a :: as, b :: bs =>
    if a.toNat < b.toNat then true
    else if b.toNat < a.toNat then false
    else charListLt as bs

/-- JS string `a < b`. -/
def strLt (a b : String) : Bool := charListLt a.data b.data

/-- JS string `a <= b`, i.e. not `b < a`. -/
def strLe (a b : String) : Bool := !(strLt b a)

/-- The sort relation used for participant names, as a proposition. -/
def strLeP (a b : String) : Prop := strLe a b = true

instance : DecidableRel strLeP := fun a b => instDecidableEqBool (strLe a b) true

/- ## Data model (`core.ts` types) -/

/-- `BillItem = SharedBillItem | PersonalBillItem`, both with `price` and `name`. -/
inductive BillItem where
  | shared (name : String) (price : ℚ)
  | personal (name : String) (price : ℚ) (person : String)
deriving DecidableEq

/-- `item.price`. -/
def BillItem.price : BillItem → ℚ
  | .shared _ p => p
  | .personal _ p _ => p

/-- `item.isShared` (the discriminant of the tagged union). -/
def BillItem.isShared : BillItem → Bool
  | .shared _ _ => true
  | .personal _ _ _ => false

/-- `item.person`; only ever read behind an `!item.isShared` guard in the
source, so the value on shared items is immaterial. -/
def BillItem.person : BillItem → String
  | .shared _ _ => ""
  | .personal _ _ p => p

/-- Input record of `splitBill`. -/
structure BillInput where
  date : String
  location : String
  tipPercentage : ℚ
  items : List BillItem

/-- `PersonItem = { name: string, amount: number }`. -/
structure PersonItem where
  name : String
  amount : ℚ
deriving DecidableEq

/-- Output record of `splitBill`. -/
structure BillOutput where
  date : String
  location : String
  subTotal : ℚ
  tip : ℚ
  totalAmount : ℚ
  items : List PersonItem

/- ## Date formatting -/

/-- `date.split("-")` on the character list. -/
def splitOnDash : List Char → List (List Char)
  | [] => [[]]
  | c :: rest =>
    if c = '-' then [] :: splitOnDash rest
    else
      match splitOnDash rest with
      | [] => [[c]]
      | h :: t => (c :: h) :: t

/-- Decimal digit test. -/
def isDigitChar (c : Char) : Bool := decide (48 ≤ c.toNat) && decide (c.toNat ≤ 57)

/-- Numeric value of a digit character. -/
def digitVal (c : Char) : Nat := c.toNat - 48

/-- Models JS `Number(s)` restricted to the strings the date components can
be: a string of decimal digits parses to its value (the empty string to `0`,
as in JS); anything else is `none` (NaN). -/
def parseNat (cs : List Char) : Option Nat :=
  if cs.all isDigitChar then some (cs.foldl (fun n c => 10 * n + digitVal c) 0) else none

/-- Template-literal rendering of the parsed component (`NaN` prints as "NaN"). -/
def jsNumToString : Option Nat → String
  | some n => Nat.repr n
  | none => "NaN"

/-- `formatDate` from `core.ts`: split on `-`, convert each of the first three
components with `Number`, interpolate into `年/月/日`.  A missing component
(fewer than three parts) renders as JS `undefined` does in a template. -/
def formatDate (date : String) : String :=
  let parts := splitOnDash date.data
  let comp : Nat → String := fun i =>
    match parts.get? i with
    | some cs => jsNumToString (parseNat cs)
    | none => "undefined"
  comp 0 ++ "年" ++ comp 1 ++ "月" ++ comp 2 ++ "日"

/- ## Core computation -/

/-- `calculateSubTotal`: `items.reduce((total, item) => total + item.price, 0)`. -/
def calculateSubTotal (items : List BillItem) : ℚ :=
  items.foldl (fun total it => total + it.price) 0

/-- `calculateTip`: `Math.round(subTotal * (tipPercentage / 100) * 10) / 10`. -/
def calculateTip (subTotal tipPercentage : ℚ) : ℚ :=
  round10 (subTotal * (tipPercentage / 100))

/-- One step of filling the `Set` of persons in `scanPersons`; a JS `Set`
keeps the first insertion of each element. -/
def collectStep (acc : List String) (it : BillItem) : List String :=
  match it with
  | .personal _ _ p => if p ∈ acc then acc else acc ++ [p]
  | .shared _ _ => acc

/-- The persons added to the `Set` in `scanPersons`, in insertion order. -/
def collectPersons (items : List BillItem) : List String :=
  items.foldl collectStep []

/-- `scanPersons`: distinct persons of personal items; if there are shared
items but no persons, fall back to `"Person 1"`, `"Person 2"`; then
`Array.from(persons).sort()`. -/
def scanPersons (items : List BillItem) : List String :=
  let persons := collectPersons items
  let withFallback :=
    if (items.any fun it => it.isShared) && persons.isEmpty then
      ["Person 1", "Person 2"]
    else persons
  List.insertionSort strLeP withFallback

/-- The per-person personal total: `items.filter(i => !i.isShared && i.person === name)`
summed.  (`personalAmounts.get(name) || 0` in the source: the map is filled for
every scanned name with exactly this value, and `0 || 0 = 0`.) -/
def personalTotal (items : List BillItem) (name : String) : ℚ :=
  (items.filter fun it => !it.isShared && it.person == name).foldl
    (fun sum it => sum + it.price) 0

/-- `sharedTotal`: sum of prices of shared items. -/
def sharedTotal (items : List BillItem) : ℚ :=
  (items.filter fun it => it.isShared).foldl (fun sum it => sum + it.price) 0

/-- `calculateItems`: one `PersonItem` per scanned name, with the personal
total plus the equal share of the shared total, tipped and rounded. -/
def calculateItems (items : List BillItem) (tipPercentage : ℚ) : List PersonItem :=
  let names := scanPersons items
  let persons : ℚ := (names.length : ℚ)
  let sharedPerPerson := sharedTotal items / persons
  names.map fun name =>
    let personal := personalTotal items name
    let total := personal + sharedPerPerson
    let tipAmount := total * (tipPercentage / 100)
    PersonItem.mk name (round10 (total + tipAmount))

/-- `calculatePersonAmount` (the unused helper in `core.ts`), with the same
running-`amount` accumulation as the source. -/
def calculatePersonAmount (items : List BillItem) (tipPercentage : ℚ)
    (name : String) (persons : ℚ) : ℚ :=
  let amount0 : ℚ := 0
  let amount1 := amount0 +
    (items.filter fun it => !it.isShared && it.person == name).foldl
      (fun sum it => sum + it.price) 0
  let sharedAmount :=
    (items.filter fun it => it.isShared).foldl (fun sum it => sum + it.price) 0
  let amount2 := amount1 + sharedAmount / persons
  let amount3 := amount2 + amount2 * (tipPercentage / 100)
  round10 amount3

/-- The `items.reduce((max, item) => item.amount > max.amount ? item : max)`
scan of `adjustAmount`, tracking the index of the current maximum:
`adjustGo i best bestAmt rest` scans `rest` whose head has index `i`. -/
def adjustGo : Nat → Nat → ℚ → List PersonItem → Nat
  | _, best, _, [] => best
  | i, best, bestAmt, it :: rest =>
    if bestAmt < it.amount then adjustGo (i + 1) i it.amount rest
    else adjustGo (i + 1) best bestAmt rest

/-- `adjustAmount`: add the rounded residual `difference` to the first
maximal-amount participant (the source mutates that array slot in place;
here the updated list is returned). -/
def adjustAmount (totalAmount : ℚ) (items : List PersonItem) : List PersonItem :=
  let currentTotal := items.foldl (fun sum it => sum + it.amount) 0
  let difference := round10 (totalAmount - currentTotal)
  match items with
  | [] => []
  | h :: t =>
    if difference = 0 then h :: t
    else
      let j := adjustGo 1 0 h.amount t
      let c := (h :: t).getD j h
      (h :: t).set j (PersonItem.mk c.name (round10 (c.amount + difference)))

/-- `splitBill`, the composition in `core.ts`. -/
def splitBill (input : BillInput) : BillOutput :=
  let date := formatDate input.date
  let location := input.location
  let subTotal := calculateSubTotal input.items
  let tip := calculateTip subTotal input.tipPercentage
  let totalAmount := subTotal + tip
  let items := calculateItems input.items input.tipPercentage
  let adjusted := adjustAmount totalAmount items
  BillOutput.mk date location subTotal tip totalAmount adjusted

/-- Rounding to the nearest tenth with halves away from zero, as the spec
words the rounding policy (`round-half-away-from-zero at the 0.1
granularity`).  Used only to compare the spec's wording with the code. -/
def roundHalfAwayFromZero10 (x : ℚ) : ℚ :=
  if 0 ≤ x then ((⌊10 * x + 1 / 2⌋ : ℤ) : ℚ) / 10
  else -(((⌊10 * (-x) + 1 / 2⌋ : ℤ) : ℚ) / 10)

/- ## Arithmetic lemmas about tenths -/

/-- A rational that is an integer number of tenths (every rounded money
amount in this program is one). -/
def IsTenth (x : ℚ) : Prop := ∃ k : ℤ, x = (k : ℚ) / 10

theorem isTenth_round10 (x : ℚ) : IsTenth (round10 x) := ⟨round (10 * x), rfl⟩

theorem isTenth_zero : IsTenth 0 := ⟨0, by norm_num⟩

theorem IsTenth.add {x y : ℚ} (hx : IsTenth x) (hy : IsTenth y) : IsTenth (x + y) := by
  obtain ⟨k, rfl⟩ := hx
  obtain ⟨l, rfl⟩ := hy
  exact ⟨k + l, by push_cast; ring⟩

theorem isTenth_sum {l : List ℚ} (h : ∀ x ∈ l, IsTenth x) : IsTenth l.sum := by
  induction l with
  | nil => simpa using isTenth_zero
  | cons a t ih =>
    rw [List.sum_cons]
    exact (h a (List.mem_cons_self a t)).add (ih fun x hx => h x (List.mem_cons_of_mem a hx))

theorem round10_int_div_ten (k : ℤ) : round10 ((k : ℚ) / 10) = (k : ℚ) / 10 := by
  have h : (10 : ℚ) * ((k : ℚ) / 10) = (k : ℚ) := by ring
  rw [round10, h, round_intCast]

theorem IsTenth.round10_eq {x : ℚ} (hx : IsTenth x) : round10 x = x := by
  obtain ⟨k, rfl⟩ := hx
  exact round10_int_div_ten k

theorem round10_sub_tenth (T x : ℚ) (hx : IsTenth x) :
    round10 (T - x) = round10 T - x := by
  obtain ⟨k, rfl⟩ := hx
  have h : (10 : ℚ) * (T - (k : ℚ) / 10) = 10 * T - (k : ℤ) := by ring
  rw [round10, h, round_sub_int, round10]
  rw [Int.cast_sub]
  ring

/- ## Folds as sums -/

theorem foldl_add_eq_sum {α : Type} (f : α → ℚ) (l : List α) :
    ∀ init : ℚ, l.foldl (fun s it => s + f it) init = init + (l.map f).sum := by
  induction l with
  | nil => intro init; simp
  | cons a t ih => intro init; simp [ih]; ring

/- ## The string order is total and transitive -/

theorem charListLt_irrefl : ∀ x : List Char, charListLt x x = false := by
  intro x
  induction x with
  | nil => rfl
  | cons a t ih => simp [charListLt, ih]

theorem char_eq_of_toNat_eq {a b : Char} (h : a.toNat = b.toNat) : a = b := by
  have hval : a.val = b.val := UInt32.toNat.inj h
  exact Char.ext hval

theorem charListLt_cons_iff (a b : Char) (as bs : List Char) :
    charListLt (a :: as) (b :: bs) = true ↔
      a.toNat < b.toNat ∨ (a.toNat = b.toNat ∧ charListLt as bs = true) := by
  simp only [charListLt]
  split_ifs with h1 h2
  · constructor
    · intro _
      exact Or.inl h1
    · intro _
      rfl
  · constructor
    · intro h
      exact absurd h (by simp)
    · intro h
      exfalso
      rcases h with h | ⟨h, _⟩ <;> omega
  · constructor
    · intro h
      exact Or.inr ⟨by omega, h⟩
    · intro h
      rcases h with h | ⟨_, h⟩
      · omega
      · exact h

theorem charListLt_cons_false_iff (a b : Char) (as bs : List Char) :
    charListLt (a :: as) (b :: bs) = false ↔
      b.toNat < a.toNat ∨ (a.toNat = b.toNat ∧ charListLt as bs = false) := by
  simp only [charListLt]
  split_ifs with h1 h2
  · constructor
    · intro h
      exact absurd h (by simp)
    · intro h
      exfalso
      rcases h with h | ⟨h, _⟩ <;> omega
  · constructor
    · intro _
      exact Or.inl h2
    · intro _
      rfl
  · constructor
    · intro h
      exact Or.inr ⟨by omega, h⟩
    · intro h
      rcases h with h | ⟨_, h⟩
      · omega
      · exact h

theorem charListLt_trans :
    ∀ x y z : List Char, charListLt x y = true → charListLt y z = true →
      charListLt x z = true := by
  intro x
  induction x with
  | nil =>
    intro y z hxy hyz
    cases y with
    | nil => exact hyz
    | cons b bs =>
      cases z with
      | nil => simp [charListLt] at hyz
      | cons c cs => rfl
  | cons a as ih =>
    intro y z hxy hyz
    cases y with
    | nil => simp [charListLt] at hxy
    | cons b bs =>
      cases z with
      | nil => simp [charListLt] at hyz
      | cons c cs =>
        rw [charListLt_cons_iff] at hxy hyz ⊢
        rcases hxy with h | ⟨h, hxy2⟩ <;> rcases hyz with g | ⟨g, hyz2⟩
        · exact Or.inl (by omega)
        · exact Or.inl (by omega)
        · exact Or.inl (by omega)
        · exact Or.inr ⟨by omega, ih bs cs hxy2 hyz2⟩

theorem charListLt_conn :
    ∀ x y : List Char, charListLt x y = false → charListLt y x = false → x = y := by
  intro x
  induction x with
  | nil =>
    intro y hxy _
    cases y with
    | nil => rfl
    | cons b bs => simp [charListLt] at hxy
  | cons a as ih =>
    intro y hxy hyx
    cases y with
    | nil => simp [charListLt] at hyx
    | cons b bs =>
      rw [charListLt_cons_false_iff] at hxy hyx
      rcases hxy with h | ⟨h, hxy2⟩ <;> rcases hyx with g | ⟨g, hyx2⟩
      · omega
      · omega
      · omega
      · have hab : a = b := char_eq_of_toNat_eq (by omega)
        rw [hab, ih bs hxy2 hyx2]

theorem string_eq_of_data_eq {a b : String} (h : a.data = b.data) : a = b := by
  cases a
  cases b
  exact congrArg String.mk h

theorem charListLt_not_both (x y : List Char) :
    charListLt x y = true → charListLt y x = true → False := by
  intro h1 h2
  have h3 := charListLt_trans x y x h1 h2
  rw [charListLt_irrefl] at h3
  exact absurd h3 (by simp)

instance instIsTotalStrLeP : IsTotal String strLeP := by
  constructor
  intro a b
  simp only [strLeP, strLe, strLt, Bool.not_eq_true']
  by_cases h : charListLt b.data a.data = true
  · refine Or.inr ?_
    cases hx : charListLt a.data b.data
    · rfl
    · exact absurd (charListLt_not_both _ _ h hx) not_false
  · exact Or.inl (Bool.eq_false_iff.mpr h)

instance instIsTransStrLeP : IsTrans String strLeP := by
  constructor
  intro a b c hab hbc
  simp only [strLeP, strLe, strLt, Bool.not_eq_true'] at hab hbc ⊢
  cases hca : charListLt c.data a.data
  · rfl
  · exfalso
    cases hab2 : charListLt a.data b.data
    · have hd : a.data = b.data := charListLt_conn _ _ hab2 hab
      rw [hd] at hca
      rw [hca] at hbc
      exact absurd hbc (by simp)
    · have h2 := charListLt_trans _ _ _ hca hab2
      rw [h2] at hbc
      exact absurd hbc (by simp)

/- ## Lemmas about participant discovery -/

theorem mem_foldl_collectStep (l : List BillItem) :
    ∀ (acc : List String) (x : String),
      x ∈ l.foldl collectStep acc ↔
        x ∈ acc ∨ ∃ it ∈ l, it.isShared = false ∧ it.person = x := by
  induction l with
  | nil =>
    intro acc x
    simp
  | cons a t ih =>
    intro acc x
    rw [List.foldl_cons, ih]
    cases a with
    | shared n p =>
      simp only [collectStep, List.mem_cons]
      constructor
      · intro h
        rcases h with h | ⟨it, hmem, hs, hp⟩
        · exact Or.inl h
        · exact Or.inr ⟨it, Or.inr hmem, hs, hp⟩
      · intro h
        rcases h with h | ⟨it, hmem, hs, hp⟩
        · exact Or.inl h
        · rcases hmem with rfl | hmem
          · simp [BillItem.isShared] at hs
          · exact Or.inr ⟨it, hmem, hs, hp⟩
    | personal n p q =>
      simp only [collectStep, List.mem_cons]
      by_cases hq : q ∈ acc
      · rw [if_pos hq]
        constructor
        · intro h
          rcases h with h | ⟨it, hmem, hs, hp⟩
          · exact Or.inl h
          · exact Or.inr ⟨it, Or.inr hmem, hs, hp⟩
        · intro h
          rcases h with h | ⟨it, hmem, hs, hp⟩
          · exact Or.inl h
          · rcases hmem with rfl | hmem
            · rw [← hp]
              exact Or.inl hq
            · exact Or.inr ⟨it, hmem, hs, hp⟩
      · rw [if_neg hq]
        constructor
        · intro h
          rcases h with h | ⟨it, hmem, hs, hp⟩
          · rcases List.mem_append.mp h with h | h
            · exact Or.inl h
            · refine Or.inr ⟨BillItem.personal n p q, Or.inl rfl, rfl, ?_⟩
              simp at h
              rw [h, BillItem.person]
          · exact Or.inr ⟨it, Or.inr hmem, hs, hp⟩
        · intro h
          rcases h with h | ⟨it, hmem, hs, hp⟩
          · exact Or.inl (List.mem_append_left _ h)
          · rcases hmem with rfl | hmem
            · refine Or.inl (List.mem_append_right _ ?_)
              rw [BillItem.person] at hp
              simp [hp]
            · exact Or.inr ⟨it, hmem, hs, hp⟩

theorem nodup_foldl_collectStep (l : List BillItem) :
    ∀ acc : List String, acc.Nodup → (l.foldl collectStep acc).Nodup := by
  induction l with
  | nil =>
    intro acc h
    exact h
  | cons a t ih =>
    intro acc h
    rw [List.foldl_cons]
    apply ih
    cases a with
    | shared n p => exact h
    | personal n p q =>
      simp only [collectStep]
      split_ifs with hq
      · exact h
      · rw [List.nodup_append]
        refine ⟨h, List.nodup_singleton q, ?_⟩
        intro a ha haq
        rw [List.mem_singleton] at haq
        rw [haq] at ha
        exact hq ha

theorem foldl_collectStep_all_shared (l : List BillItem) (h : ∀ it ∈ l, it.isShared = true) :
    ∀ acc, l.foldl collectStep acc = acc := by
  induction l with
  | nil =>
    intro acc
    rfl
  | cons a t ih =>
    intro acc
    rw [List.foldl_cons]
    have ha := h a (List.mem_cons_self a t)
    cases a with
    | shared n p => exact ih (fun it hit => h it (List.mem_cons_of_mem _ hit)) acc
    | personal n p q => simp [BillItem.isShared] at ha

theorem collectPersons_eq_nil_iff (l : List BillItem) :
    collectPersons l = [] ↔ ∀ it ∈ l, it.isShared = true := by
  constructor
  · intro h it hit
    cases it with
    | shared n p => rfl
    | personal n p q =>
      have hmem : q ∈ collectPersons l :=
        (mem_foldl_collectStep l [] q).mpr (Or.inr ⟨_, hit, rfl, rfl⟩)
      rw [h] at hmem
      simp at hmem
  · intro h
    exact foldl_collectStep_all_shared l h []

/- ## Lemmas about `scanPersons` -/

theorem scanPersons_sorted (items : List BillItem) :
    (scanPersons items).Sorted strLeP :=
  List.sorted_insertionSort strLeP _

theorem scanPersons_eq_fallback (items : List BillItem)
    (h1 : (items.any fun it => it.isShared) = true)
    (h2 : collectPersons items = []) :
    scanPersons items = ["Person 1", "Person 2"] := by
  simp only [scanPersons, h1, h2, List.isEmpty_nil, Bool.and_self, if_true]
  decide

theorem scanPersons_eq_sort_collect (items : List BillItem)
    (h2 : collectPersons items ≠ []) :
    scanPersons items = List.insertionSort strLeP (collectPersons items) := by
  have hemp : (collectPersons items).isEmpty = false := by
    cases hc : collectPersons items
    · exact absurd hc h2
    · rfl
  simp only [scanPersons, hemp, Bool.and_false]
  simp

theorem scanPersons_nodup (items : List BillItem) : (scanPersons items).Nodup := by
  by_cases h2 : collectPersons items = []
  · by_cases h1 : (items.any fun it => it.isShared) = true
    · rw [scanPersons_eq_fallback items h1 h2]
      decide
    · have hemp : (items.any fun it => it.isShared) = false := Bool.eq_false_iff.mpr h1
      simp only [scanPersons, hemp, Bool.false_and, if_false]
      exact ((List.perm_insertionSort strLeP _).nodup_iff).mpr
        (nodup_foldl_collectStep items [] List.nodup_nil)
  · rw [scanPersons_eq_sort_collect items h2]
    exact ((List.perm_insertionSort strLeP _).nodup_iff).mpr
      (nodup_foldl_collectStep items [] List.nodup_nil)

theorem scanPersons_all_shared (items : List BillItem)
    (h1 : ∃ it ∈ items, it.isShared = true)
    (h2 : ∀ it ∈ items, it.isShared = true) :
    scanPersons items = ["Person 1", "Person 2"] := by
  apply scanPersons_eq_fallback
  · rw [List.any_eq_true]
    obtain ⟨it, hmem, hs⟩ := h1
    exact ⟨it, hmem, hs⟩
  · exact (collectPersons_eq_nil_iff items).mpr h2

theorem scanPersons_ne_nil (items : List BillItem) (h : items ≠ []) :
    scanPersons items ≠ [] := by
  by_cases hall : ∀ it ∈ items, it.isShared = true
  · have h1 : ∃ it ∈ items, it.isShared = true := by
      cases items with
      | nil => exact absurd rfl h
      | cons a t => exact ⟨a, List.mem_cons_self a t, hall a (List.mem_cons_self a t)⟩
    rw [scanPersons_all_shared items h1 hall]
    simp
  · push_neg at hall
    obtain ⟨it, hmem, hs⟩ := hall
    cases it with
    | shared n p => exact absurd rfl hs
    | personal n p q =>
      have hq : q ∈ collectPersons items :=
        (mem_foldl_collectStep items [] q).mpr (Or.inr ⟨_, hmem, rfl, rfl⟩)
      have hne : collectPersons items ≠ [] := by
        intro hc
        rw [hc] at hq
        simp at hq
      rw [scanPersons_eq_sort_collect items hne]
      intro hcontra
      have hq2 : q ∈ List.insertionSort strLeP (collectPersons items) :=
        (List.mem_insertionSort strLeP).mpr hq
      rw [hcontra] at hq2
      simp at hq2

/- ## Lemmas about `adjustAmount` -/

theorem getD_append_length (q1 : List PersonItem) (c : PersonItem) (q2 : List PersonItem)
    (d : PersonItem) : (q1 ++ c :: q2).getD q1.length d = c := by
  induction q1 with
  | nil => rfl
  | cons a t ih => simpa using ih

theorem set_append_length (q1 : List PersonItem) (c : PersonItem) (q2 : List PersonItem)
    (v : PersonItem) : (q1 ++ c :: q2).set q1.length v = q1 ++ v :: q2 := by
  induction q1 with
  | nil => rfl
  | cons a t ih => simp [ih]

theorem adjustGo_spec :
    ∀ (t p1 : List PersonItem) (b : PersonItem) (p2 : List PersonItem),
      (∀ y ∈ p1, y.amount < b.amount) →
      (∀ y ∈ p2, y.amount ≤ b.amount) →
      ∃ q1 c q2,
        p1 ++ b :: p2 ++ t = q1 ++ c :: q2 ∧
        (∀ y ∈ q1, y.amount < c.amount) ∧
        (∀ y ∈ q2, y.amount ≤ c.amount) ∧
        adjustGo (p1.length + p2.length + 1) p1.length b.amount t = q1.length := by
  intro t
  induction t with
  | nil =>
    intro p1 b p2 h1 h2
    exact ⟨p1, b, p2, by simp, h1, h2, rfl⟩
  | cons x t ih =>
    intro p1 b p2 h1 h2
    by_cases hx : b.amount < x.amount
    · have h1' : ∀ y ∈ p1 ++ b :: p2, y.amount < x.amount := by
        intro y hy
        rcases List.mem_append.mp hy with hy | hy
        · exact lt_trans (h1 y hy) hx
        · rcases List.mem_cons.mp hy with rfl | hy
          · exact hx
          · exact lt_of_le_of_lt (h2 y hy) hx
      obtain ⟨q1, c, q2, heq, hq1, hq2, hgo⟩ :=
        ih (p1 ++ b :: p2) x [] h1' (by simp)
      refine ⟨q1, c, q2, ?_, hq1, hq2, ?_⟩
      · rw [← heq]
        simp
      · show adjustGo (p1.length + p2.length + 1) p1.length b.amount (x :: t) = q1.length
        simp only [adjustGo, if_pos hx]
        have e1 : (p1 ++ b :: p2).length + List.length ([] : List PersonItem) + 1 =
            p1.length + p2.length + 1 + 1 := by
          simp only [List.length_append, List.length_cons, List.length_nil]
          omega
        have e2 : (p1 ++ b :: p2).length = p1.length + p2.length + 1 := by
          simp only [List.length_append, List.length_cons]
          omega
        rw [e1, e2] at hgo
        exact hgo
    · have hxle : x.amount ≤ b.amount := le_of_not_lt hx
      have h2' : ∀ y ∈ p2 ++ [x], y.amount ≤ b.amount := by
        intro y hy
        rcases List.mem_append.mp hy with hy | hy
        · exact h2 y hy
        · rw [List.mem_singleton] at hy
          rw [hy]
          exact hxle
      obtain ⟨q1, c, q2, heq, hq1, hq2, hgo⟩ := ih p1 b (p2 ++ [x]) h1 h2'
      refine ⟨q1, c, q2, ?_, hq1, hq2, ?_⟩
      · rw [← heq]
        simp
      · show adjustGo (p1.length + p2.length + 1) p1.length b.amount (x :: t) = q1.length
        simp only [adjustGo, if_neg hx]
        have e1 : p1.length + (p2 ++ [x]).length + 1 = p1.length + p2.length + 1 + 1 := by
          simp only [List.length_append, List.length_cons, List.length_nil]
          omega
        rw [e1] at hgo
        exact hgo

theorem adjustAmount_eq_self (T : ℚ) (items : List PersonItem)
    (hd : round10 (T - (items.map PersonItem.amount).sum) = 0) :
    adjustAmount T items = items := by
  cases items with
  | nil => rfl
  | cons h t =>
    simp only [adjustAmount]
    rw [foldl_add_eq_sum PersonItem.amount (h :: t) 0, zero_add, if_pos hd]

theorem adjustAmount_decomp (T : ℚ) (items : List PersonItem)
    (hne : items ≠ [])
    (hd : round10 (T - (items.map PersonItem.amount).sum) ≠ 0) :
    ∃ q1 c q2, items = q1 ++ c :: q2 ∧
      (∀ y ∈ q1, y.amount < c.amount) ∧
      (∀ y ∈ q2, y.amount ≤ c.amount) ∧
      adjustAmount T items =
        q1 ++ PersonItem.mk c.name
          (round10 (c.amount + round10 (T - (items.map PersonItem.amount).sum))) :: q2 := by
  cases items with
  | nil => exact absurd rfl hne
  | cons h t =>
    obtain ⟨q1, c, q2, heq, hq1, hq2, hgo⟩ := adjustGo_spec t [] h [] (by simp) (by simp)
    simp only [List.nil_append, List.singleton_append, List.length_nil] at heq hgo
    refine ⟨q1, c, q2, heq, hq1, hq2, ?_⟩
    simp only [adjustAmount]
    rw [foldl_add_eq_sum PersonItem.amount (h :: t) 0, zero_add, if_neg hd]
    rw [hgo, heq, getD_append_length, set_append_length]

/- ## Lemmas about `calculateItems` -/

theorem calculateItems_map_name (items : List BillItem) (tp : ℚ) :
    (calculateItems items tp).map PersonItem.name = scanPersons items := by
  simp only [calculateItems, List.map_map]
  exact List.map_id _

theorem calculateItems_amount_isTenth {items : List BillItem} {tp : ℚ} {pi : PersonItem}
    (h : pi ∈ calculateItems items tp) : IsTenth pi.amount := by
  simp only [calculateItems, List.mem_map] at h
  obtain ⟨nm, hnm, heq⟩ := h
  rw [← heq]
  exact isTenth_round10 _

theorem calculateItems_ne_nil (items : List BillItem) (tp : ℚ) (h : items ≠ []) :
    calculateItems items tp ≠ [] := by
  intro hc
  apply scanPersons_ne_nil items h
  rw [← calculateItems_map_name items tp, hc]
  rfl

/- ## The reconciliation invariant, abstractly -/

theorem adjust_sum (T : ℚ) (L : List PersonItem) (hLne : L ≠ [])
    (hall : ∀ pi ∈ L, IsTenth pi.amount) :
    ((adjustAmount T L).map PersonItem.amount).sum = round10 T := by
  have hs : IsTenth ((L.map PersonItem.amount).sum) := by
    apply isTenth_sum
    intro x hx
    rw [List.mem_map] at hx
    obtain ⟨pi, hpi, rfl⟩ := hx
    exact hall pi hpi
  by_cases hd : round10 (T - (L.map PersonItem.amount).sum) = 0
  · rw [adjustAmount_eq_self T L hd]
    rw [round10_sub_tenth T _ hs] at hd
    linarith
  · obtain ⟨q1, c, q2, heq, hq1, hq2, hout⟩ := adjustAmount_decomp T L hLne hd
    have hcmem : c ∈ L := by
      rw [heq]
      exact List.mem_append_right _ (List.mem_cons_self _ _)
    have hcT : IsTenth c.amount := hall c hcmem
    have hdT : IsTenth (round10 (T - (L.map PersonItem.amount).sum)) := isTenth_round10 _
    have hv : round10 (c.amount + round10 (T - (L.map PersonItem.amount).sum)) =
        c.amount + round10 (T - (L.map PersonItem.amount).sum) := (hcT.add hdT).round10_eq
    have hsplit : (L.map PersonItem.amount).sum =
        (q1.map PersonItem.amount).sum + (c.amount + (q2.map PersonItem.amount).sum) := by
      rw [heq]
      simp [List.sum_append]
    rw [hout]
    simp only [List.map_append, List.map_cons, List.sum_append, List.sum_cons]
    rw [round10_sub_tenth T _ hs] at hv ⊢
    rw [hsplit] at hv ⊢
    rw [hv]
    ring

theorem adjustAmount_map_name (T : ℚ) (L : List PersonItem) :
    (adjustAmount T L).map PersonItem.name = L.map PersonItem.name := by
  by_cases hne : L = []
  · rw [hne]
    rfl
  · by_cases hd : round10 (T - (L.map PersonItem.amount).sum) = 0
    · rw [adjustAmount_eq_self T L hd]
    · obtain ⟨q1, c, q2, heq, hq1, hq2, hout⟩ := adjustAmount_decomp T L hne hd
      rw [hout, heq]
      simp

/- ## Lemmas about `splitOnDash` -/

theorem splitOnDash_no_dash (xs : List Char) (h : '-' ∉ xs) : splitOnDash xs = [xs] := by
  induction xs with
  | nil => rfl
  | cons c rest ih =>
    have hc : c ≠ '-' := fun hcc => h (hcc ▸ List.mem_cons_self c rest)
    have hrest : '-' ∉ rest := fun hr => h (List.mem_cons_of_mem c hr)
    simp only [splitOnDash, if_neg hc]
    rw [ih hrest]

theorem splitOnDash_append (xs rest : List Char) (h : '-' ∉ xs) :
    splitOnDash (xs ++ '-' :: rest) = xs :: splitOnDash rest := by
  induction xs with
  | nil => simp [splitOnDash]
  | cons c xs ih =>
    have hc : c ≠ '-' := fun hcc => h (hcc ▸ List.mem_cons_self _ _)
    have hxs : '-' ∉ xs := fun hr => h (List.mem_cons_of_mem c hr)
    simp only [List.cons_append, splitOnDash, if_neg hc]
    rw [List.append_eq, ih hxs]

theorem getD_mem_of_lt {l : List PersonItem} {n : Nat} {d : PersonItem}
    (h : n < l.length) : l.getD n d ∈ l := by
  induction l generalizing n with
  | nil => simp at h
  | cons a t ih =>
    cases n with
    | zero => simp [List.getD]
    | succ n =>
      simp only [List.getD_cons_succ]
      exact List.mem_cons_of_mem a (ih (by simpa using h))

/- ## Claim theorems -/

/-- Claim C1: for every bill input with a non-empty items list, the amounts in
the output of `splitBill` sum exactly to the grand total `subTotal + tip`
rounded to one decimal, after the reconciliation step. -/
theorem splitBill_sum_reconciliation (input : BillInput) (h : input.items ≠ []) :
    ((splitBill input).items.map PersonItem.amount).sum =
      round10 ((splitBill input).subTotal + (splitBill input).tip) := by
  have hitems : (splitBill input).items =
      adjustAmount (calculateSubTotal input.items +
        calculateTip (calculateSubTotal input.items) input.tipPercentage)
        (calculateItems input.items input.tipPercentage) := rfl
  have hsub : (splitBill input).subTotal = calculateSubTotal input.items := rfl
  have htip : (splitBill input).tip =
      calculateTip (calculateSubTotal input.items) input.tipPercentage := rfl
  rw [hitems, hsub, htip]
  apply adjust_sum
  · exact calculateItems_ne_nil input.items input.tipPercentage h
  · intro pi hpi
    exact calculateItems_amount_isTenth hpi

/-- Witness for C1: the spec's pizza scenario (one shared item, 10% tip). -/
theorem splitBill_sum_reconciliation_witness :
    ((splitBill (BillInput.mk "2024-03-21" "HK" 10
        [BillItem.shared "Pizza" 30])).items.map PersonItem.amount).sum =
      round10 ((splitBill (BillInput.mk "2024-03-21" "HK" 10
        [BillItem.shared "Pizza" 30])).subTotal +
        (splitBill (BillInput.mk "2024-03-21" "HK" 10
          [BillItem.shared "Pizza" 30])).tip) :=
  splitBill_sum_reconciliation _ (by decide)

/-- Claim C2: each entry of `calculateItems` carries the participant's raw
share `personalTotal + sharedTotal / participantCount`, tipped by the factor
`1 + tipPercentage / 100` on that share independently, rounded to a tenth. -/
theorem calculateItems_per_person_amount (items : List BillItem) (tp : ℚ)
    (pi : PersonItem) (h : pi ∈ calculateItems items tp) :
    pi.amount = round10 ((personalTotal items pi.name +
      sharedTotal items / ((scanPersons items).length : ℚ)) * (1 + tp / 100)) := by
  simp only [calculateItems, List.mem_map] at h
  obtain ⟨nm, hnm, heq⟩ := h
  cases heq
  exact congrArg round10 (by ring)

/-- Witness for C2: a single personal item for Alice with a 20% tip. -/
theorem calculateItems_per_person_amount_witness :
    ((calculateItems [BillItem.personal "Steak" 100 "Alice"] 20).getD 0
        (PersonItem.mk "" 0)).amount =
      round10 ((personalTotal [BillItem.personal "Steak" 100 "Alice"]
          ((calculateItems [BillItem.personal "Steak" 100 "Alice"] 20).getD 0
            (PersonItem.mk "" 0)).name +
        sharedTotal [BillItem.personal "Steak" 100 "Alice"] /
          ((scanPersons [BillItem.personal "Steak" 100 "Alice"]).length : ℚ)) *
        (1 + 20 / 100)) :=
  calculateItems_per_person_amount _ 20 _
    (getD_mem_of_lt (by decide))

/-- Claim C3: with at least one shared item and no personal items the resolved
participants are exactly the two synthetic ones, and the output of `splitBill`
has exactly one entry for each of them. -/
theorem scanPersons_shared_fallback (input : BillInput)
    (h1 : ∃ it ∈ input.items, it.isShared = true)
    (h2 : ∀ it ∈ input.items, it.isShared = true) :
    scanPersons input.items = ["Person 1", "Person 2"] ∧
      (splitBill input).items.map PersonItem.name = ["Person 1", "Person 2"] := by
  have hscan := scanPersons_all_shared input.items h1 h2
  refine ⟨hscan, ?_⟩
  have hitems : (splitBill input).items =
      adjustAmount (calculateSubTotal input.items +
        calculateTip (calculateSubTotal input.items) input.tipPercentage)
        (calculateItems input.items input.tipPercentage) := rfl
  rw [hitems, adjustAmount_map_name, calculateItems_map_name, hscan]

/-- Witness for C3: a bill with a single shared pizza. -/
theorem scanPersons_shared_fallback_witness :
    scanPersons (BillInput.mk "2024-03-21" "HK" 10
        [BillItem.shared "Pizza" 30]).items = ["Person 1", "Person 2"] ∧
      (splitBill (BillInput.mk "2024-03-21" "HK" 10
        [BillItem.shared "Pizza" 30])).items.map PersonItem.name =
        ["Person 1", "Person 2"] :=
  scanPersons_shared_fallback _ (by decide) (by decide)

/-- Claim C4: reconciliation modifies at most one entry.  The names and the
order are always preserved; if the rounded difference is zero or the list is
empty nothing changes; otherwise the list decomposes around the first entry
of maximal amount (strictly greater than everything before it, at least as
large as everything after it), and only that entry's amount is replaced by
its old amount plus the difference, re-rounded to a tenth. -/
theorem adjustAmount_frame (T : ℚ) (items : List PersonItem) (d : ℚ)
    (hd : d = round10 (T - (items.map PersonItem.amount).sum)) :
    (adjustAmount T items).map PersonItem.name = items.map PersonItem.name ∧
    (d = 0 ∨ items = [] → adjustAmount T items = items) ∧
    (d ≠ 0 → items ≠ [] →
      ∃ q1 c q2, items = q1 ++ c :: q2 ∧
        (∀ y ∈ q1, y.amount < c.amount) ∧
        (∀ y ∈ q2, y.amount ≤ c.amount) ∧
        adjustAmount T items =
          q1 ++ PersonItem.mk c.name (round10 (c.amount + d)) :: q2) := by
  subst hd
  refine ⟨adjustAmount_map_name T items, ?_, ?_⟩
  · intro h
    rcases h with h | h
    · exact adjustAmount_eq_self T items h
    · rw [h]
      rfl
  · intro hdne hne
    exact adjustAmount_decomp T items hne hdne

/-- Witness for C4: a single participant owing 1 against a total of 2 absorbs
the whole rounded difference. -/
theorem adjustAmount_frame_witness :
    adjustAmount 2 [PersonItem.mk "A" 1] =
      [PersonItem.mk "A" (round10 ((1 : ℚ) + 1))] := by
  have hd : (1 : ℚ) =
      round10 (2 - (([PersonItem.mk "A" 1] : List PersonItem).map PersonItem.amount).sum) := by
    norm_num [round10, round_eq]
  obtain ⟨q1, c, q2, heq, hq1, hq2, hout⟩ :=
    (adjustAmount_frame 2 [PersonItem.mk "A" 1] 1 hd).2.2 (by norm_num) (by simp)
  rcases q1 with _ | ⟨x, q1⟩
  · rw [List.nil_append] at heq hout
    cases heq
    exact hout
  · exfalso
    have hlen := congrArg List.length heq
    simp [List.length_append] at hlen

/-- Claim C5 (corrected): `calculateTip` rounds `subtotal * tipPercentage / 100`
to the nearest tenth with halves toward +∞ (JS `Math.round`), which agrees
with round-half-away-from-zero whenever `subtotal * tipPercentage` is
non-negative; the result is always an integer number of tenths, and is
non-negative when both arguments are. -/
theorem calculateTip_rounding (s tp : ℚ) :
    calculateTip s tp = ((⌊10 * (s * tp / 100) + 1 / 2⌋ : ℤ) : ℚ) / 10 ∧
    (0 ≤ s * tp → calculateTip s tp = roundHalfAwayFromZero10 (s * (tp / 100))) ∧
    (∃ k : ℤ, calculateTip s tp = (k : ℚ) / 10) ∧
    (0 ≤ s → 0 ≤ tp → 0 ≤ calculateTip s tp) := by
  refine ⟨?_, ?_, ⟨round (10 * (s * (tp / 100))), rfl⟩, ?_⟩
  · rw [calculateTip, round10, round_eq]
    have harg : 10 * (s * (tp / 100)) = 10 * (s * tp / 100) := by ring
    rw [harg]
  · intro hstp
    have hx : 0 ≤ s * (tp / 100) := by
      have hform : s * (tp / 100) = s * tp / 100 := by ring
      rw [hform]
      exact div_nonneg hstp (by norm_num)
    rw [calculateTip, roundHalfAwayFromZero10, if_pos hx, round10, round_eq]
  · intro hs htp
    rw [calculateTip, round10]
    have hr : 0 ≤ round (10 * (s * (tp / 100))) := by
      rw [round_eq]
      apply Int.floor_nonneg.mpr
      have hpos : (0 : ℚ) ≤ 10 * (s * (tp / 100)) := by positivity
      linarith
    apply div_nonneg _ (by norm_num)
    exact_mod_cast hr

/-- Witness for C5's theorem: a 10% tip on a subtotal of 30. -/
theorem calculateTip_rounding_witness :
    (0 : ℚ) ≤ calculateTip 30 10 ∧
      calculateTip 30 10 = roundHalfAwayFromZero10 (30 * (10 / 100)) :=
  ⟨(calculateTip_rounding 30 10).2.2.2 (by norm_num) (by norm_num),
   (calculateTip_rounding 30 10).2.1 (by norm_num)⟩

/-- Counterexample to C5 as stated: on the negative half-tenth
`subtotal = -1/2, tipPercentage = 10` the code (JS `Math.round`, halves
toward +∞) yields `0`, while round-half-away-from-zero yields `-0.1`. -/
theorem calculateTip_half_away_counterexample :
    calculateTip (-(1 : ℚ) / 2) 10 ≠
      roundHalfAwayFromZero10 ((-(1 : ℚ) / 2) * (10 / 100)) := by
  have h1 : calculateTip (-(1 : ℚ) / 2) 10 = 0 := by
    norm_num [calculateTip, round10, round_eq]
  have h2 : roundHalfAwayFromZero10 ((-(1 : ℚ) / 2) * (10 / 100)) = -(1 / 10) := by
    norm_num [roundHalfAwayFromZero10]
  rw [h1, h2]
  norm_num

/-- Claim C6: the output participant list of `splitBill` is sorted ascending
in the JS lexicographic string order and has no duplicate names. -/
theorem splitBill_names_sorted_nodup (input : BillInput) :
    ((splitBill input).items.map PersonItem.name).Sorted strLeP ∧
      ((splitBill input).items.map PersonItem.name).Nodup := by
  have hitems : (splitBill input).items =
      adjustAmount (calculateSubTotal input.items +
        calculateTip (calculateSubTotal input.items) input.tipPercentage)
        (calculateItems input.items input.tipPercentage) := rfl
  rw [hitems, adjustAmount_map_name, calculateItems_map_name]
  exact ⟨scanPersons_sorted input.items, scanPersons_nodup input.items⟩

/-- Claim C7: `subTotal` is the exact sum of the item prices, `totalAmount`
is the unrounded `subTotal + tip`, and a zero tip percentage gives a zero tip
and `totalAmount = subTotal`. -/
theorem splitBill_totals (input : BillInput) :
    (splitBill input).subTotal = (input.items.map BillItem.price).sum ∧
    (splitBill input).totalAmount = (splitBill input).subTotal + (splitBill input).tip ∧
    (input.tipPercentage = 0 →
      (splitBill input).tip = 0 ∧
        (splitBill input).totalAmount = (splitBill input).subTotal) := by
  have hsub : (splitBill input).subTotal = calculateSubTotal input.items := rfl
  have htip : (splitBill input).tip =
      calculateTip (calculateSubTotal input.items) input.tipPercentage := rfl
  have htot : (splitBill input).totalAmount =
      (splitBill input).subTotal + (splitBill input).tip := rfl
  refine ⟨?_, htot, ?_⟩
  · rw [hsub, calculateSubTotal, foldl_add_eq_sum BillItem.price input.items 0, zero_add]
  · intro h0
    have h1 : (splitBill input).tip = 0 := by
      rw [htip, h0, calculateTip]
      norm_num [round10, round_zero, mul_zero]
    exact ⟨h1, by rw [htot, h1, add_zero]⟩

/-- Witness for C7: zero tip percentage on one personal item. -/
theorem splitBill_totals_witness :
    (splitBill (BillInput.mk "2024-01-05" "HK" 0
        [BillItem.personal "Tea" 10 "Alice"])).tip = 0 ∧
      (splitBill (BillInput.mk "2024-01-05" "HK" 0
        [BillItem.personal "Tea" 10 "Alice"])).totalAmount =
        (splitBill (BillInput.mk "2024-01-05" "HK" 0
          [BillItem.personal "Tea" 10 "Alice"])).subTotal :=
  (splitBill_totals _).2.2 rfl

/-- Claim C8: whenever a shared item exists the resolved participant count is
at least one (so the per-person division is by a nonzero count), and at least
two when there are no personal items. -/
theorem scanPersons_count_positive (items : List BillItem)
    (h : ∃ it ∈ items, it.isShared = true) :
    1 ≤ (scanPersons items).length ∧
      ((scanPersons items).length : ℚ) ≠ 0 ∧
      ((∀ it ∈ items, it.isShared = true) → 2 ≤ (scanPersons items).length) := by
  have hne : items ≠ [] := by
    obtain ⟨it, hmem, _⟩ := h
    intro hc
    rw [hc] at hmem
    simp at hmem
  have hsne := scanPersons_ne_nil items hne
  have h1 : 1 ≤ (scanPersons items).length := by
    have := List.length_pos.mpr hsne
    omega
  refine ⟨h1, Nat.cast_ne_zero.mpr (by omega), ?_⟩
  intro hall
  rw [scanPersons_all_shared items h hall]
  simp

/-- Witness for C8: a single shared pizza. -/
theorem scanPersons_count_positive_witness :
    1 ≤ (scanPersons [BillItem.shared "Pizza" 30]).length ∧
      ((scanPersons [BillItem.shared "Pizza" 30]).length : ℚ) ≠ 0 ∧
      ((∀ it ∈ [BillItem.shared "Pizza" 30], it.isShared = true) →
        2 ≤ (scanPersons [BillItem.shared "Pizza" 30]).length) :=
  scanPersons_count_positive _ (by decide)

/-- Claim C9: on a dash-separated date of three digit components,
`formatDate` renders each component's numeric value (so leading zeros are
dropped) between the localized markers. -/
theorem formatDate_localizes (date : String) (y m d : List Char) (Y M D : Nat)
    (hdate : date.data = y ++ '-' :: (m ++ '-' :: d))
    (hy : '-' ∉ y) (hm : '-' ∉ m) (hd2 : '-' ∉ d)
    (hY : parseNat y = some Y) (hM : parseNat m = some M) (hD : parseNat d = some D) :
    formatDate date = Nat.repr Y ++ "年" ++ Nat.repr M ++ "月" ++ Nat.repr D ++ "日" := by
  simp only [formatDate]
  rw [hdate, splitOnDash_append y _ hy, splitOnDash_append m _ hm, splitOnDash_no_dash d hd2]
  simp only [List.get?]
  rw [hY, hM, hD]
  rfl

/-- Witness for C9: both spec examples, including the dropped leading zeros. -/
theorem formatDate_localizes_witness :
    formatDate "2024-03-21" = "2024年3月21日" ∧
      formatDate "2024-01-05" = "2024年1月5日" := by
  constructor
  · have h := formatDate_localizes "2024-03-21"
      ['2', '0', '2', '4'] ['0', '3'] ['2', '1'] 2024 3 21 rfl
      (by decide) (by decide) (by decide) (by decide) (by decide) (by decide)
    rw [h]
    rfl
  · have h := formatDate_localizes "2024-01-05"
      ['2', '0', '2', '4'] ['0', '1'] ['0', '5'] 2024 1 5 rfl
      (by decide) (by decide) (by decide) (by decide) (by decide) (by decide)
    rw [h]
    rfl

/-- Claim C10: the unused helper `calculatePersonAmount`, fed the length of
`scanPersons` as the participant count, computes exactly the amounts
`calculateItems` produces, name by name. -/
theorem calculatePersonAmount_equiv (items : List BillItem) (tp : ℚ) :
    calculateItems items tp =
      (scanPersons items).map fun nm =>
        PersonItem.mk nm
          (calculatePersonAmount items tp nm ((scanPersons items).length : ℚ)) := by
  simp only [calculateItems, calculatePersonAmount, personalTotal, sharedTotal]
  apply List.map_congr_left
  intro nm hnm
  exact congrArg (PersonItem.mk nm) (congrArg round10 (by ring))
